import Mathlib

set_option maxHeartbeats 1000000

/- Shallow embedding of the recipe-wiki server (src/wiki.go).
   Text is modelled as List Char; Go strings are UTF-8 byte strings and every
   character this program inspects is ASCII, where byte order and codepoint
   order agree, so the List Char model is faithful. -/

/-- Go strings.Split(s, "\n"): the list of newline-separated parts
(always nonempty; a trailing newline yields a trailing empty part). -/
def splitNl : List Char → List (List Char)
  | [] => [[]]
  | c :: rest =>
    if c = '\n' then [] :: splitNl rest
    else
      match splitNl rest with
      | [] => [[c]]
      | p :: ps => (c :: p) :: ps

/-- Join lines, terminating each with a newline (used only in specifications). -/
def joinNl : List (List Char) → List Char
  | [] => []
  | l :: ls => l ++ ('\n' :: joinNl ls)

/-- If s = pat ++ rest for some rest, return some rest, else none. -/
def stripStart : List Char → List Char → Option (List Char)
  | s, [] => some s
  | [], _ :: _ => none
  | c :: cs, p :: ps => if c = p then stripStart cs ps else none

/-- Fuel-indexed worker for Go strings.Replace(s, old, new, -1): scan left to
right, replacing non-overlapping occurrences of old.  The fuel (initially
s.length) only forces termination; it never runs out when old is nonempty,
which holds at every call site in the program. -/
def replaceAux (old new : List Char) : Nat → List Char → List Char
  | _, [] => []
  | 0, s => s
  | f + 1, c :: cs =>
    match stripStart (c :: cs) old with
    | some rest => new ++ replaceAux old new f rest
    | none => c :: replaceAux old new f cs

/-- Go strings.Replace(s, old, new, -1). -/
def goReplace (s old new : List Char) : List Char := replaceAux old new s.length s

/-- Go string comparison s < t: byte-wise lexicographic order. -/
def strLt : List Char → List Char → Bool
  | [], [] => false
  | [], _ :: _ => true
  | _ :: _, [] => false
  | x :: xs, y :: ys => if x < y then true else if y < x then false else strLt xs ys

/-- The ingredients sentinel line of the stored page format. -/
def sentinelIng : List Char := "<!-- Ingredients -->".data

/-- The instructions sentinel line of the stored page format. -/
def sentinelIns : List Char := "<!-- Instructions -->".data

def isSentinelLine (l : List Char) : Bool :=
  if l = sentinelIng then true else if l = sentinelIns then true else false

/-- First sentinel line of a line list (used with a reversed list to find the
most recent sentinel). -/
def findSent : List (List Char) → Option (List Char)
  | [] => none
  | l :: ls => if isSentinelLine l then some l else findSent ls

/-- Loop body of parseRecipe (src/wiki.go lines 284-310): scan the lines,
switching accumulation mode at sentinel lines, appending every other line plus
a newline to the active section; a line seen before any sentinel panics,
modelled as none. -/
def parseLines : List (List Char) → Bool → Bool → List Char → List Char →
    Option (List Char × List Char)
  | [], _, _, ing, ins => some (ing, ins)
  | l :: ls, inIng, inIns, ing, ins =>
    if l = sentinelIng then parseLines ls true false ing ins
    else if l = sentinelIns then parseLines ls false true ing ins
    else if inIng then parseLines ls inIng inIns (ing ++ (l ++ ['\n'])) ins
    else if inIns then parseLines ls inIng inIns ing (ins ++ (l ++ ['\n']))
    else none

/-- parseRecipe (src/wiki.go lines 284-310); none models the panic on a line
before any sentinel. -/
def parseRecipe (content : List Char) : Option (List Char × List Char) :=
  parseLines (splitNl content) false false [] []

/-- The body written by Page.save (src/wiki.go line 43):
fmt.Sprintf("<!-- Ingredients -->\n%s\n<!-- Instructions -->\n%s", ...). -/
def serializeRecipe (ingredients instructions : List Char) : List Char :=
  sentinelIng ++ ('\n' :: (ingredients ++ ('\n' :: (sentinelIns ++ ('\n' :: instructions)))))

/-- convertTitleToFilename (src/wiki.go lines 164-166): spaces become hyphens. -/
def convertTitleToFilename (title : List Char) : List Char := goReplace title [' '] ['-']

/-- convertFilenameToTitle (src/wiki.go lines 168-170): hyphens become spaces. -/
def convertFilenameToTitle (filename : List Char) : List Char := goReplace filename ['-'] [' ']

/-- The ".txt" storage extension. -/
def txtExt : List Char := ".txt".data

/-- rootTitle (src/wiki.go line 312). -/
def homeTitleS : List Char := "Home".data

/-- The character class of the wikiLink regular expression
"\\[\\[([-a-zA-Z0-9 ]+)\\]\\]" (src/wiki.go line 206). -/
def isLinkChar (c : Char) : Bool :=
  c = '-' || (('a' ≤ c && c ≤ 'z') || (('A' ≤ c && c ≤ 'Z') ||
    (('0' ≤ c && c ≤ '9') || c = ' ')))

/-- The regexp replacement template <a href="/view/$1">$1</a>
(src/wiki.go line 210). -/
def linkRepl (w : List Char) : List Char :=
  "<a href=\"/view/".data ++ (w ++ ("\">".data ++ (w ++ "</a>".data)))

/-- Leftmost wikiLink match attempt at the head of s: the pattern needs "[[",
then a nonempty run of link characters, then "]]"; on success returns the
captured run and the rest of the input.  Because the class excludes brackets,
the regex can match at a position in exactly this one way. -/
def matchLink : List Char → Option (List Char × List Char)
  | c1 :: c2 :: rest =>
    if c1 = '[' ∧ c2 = '[' then
      match rest.dropWhile isLinkChar with
      | d1 :: d2 :: r2 =>
        if d1 = ']' ∧ d2 = ']' ∧ rest.takeWhile isLinkChar ≠ [] then
          some (rest.takeWhile isLinkChar, r2)
        else none
      | _ => none
    else none
  | _ => none

/-- Fuel-indexed worker for convertWikiMarkup; the fuel (initially s.length)
never runs out because every match consumes at least five characters. -/
def convertAux : Nat → List Char → List Char
  | _, [] => []
  | 0, s => s
  | f + 1, c :: rest =>
    match matchLink (c :: rest) with
    | some (w, r) => linkRepl w ++ convertAux f r
    | none => c :: convertAux f rest

/-- convertWikiMarkup (src/wiki.go lines 209-212): wikiLink.ReplaceAll with the
anchor template, i.e. replace every non-overlapping leftmost match. -/
def convertWikiMarkup (s : List Char) : List Char := convertAux s.length s

/-- s contains a substring matching the wikiLink token pattern. -/
def hasLinkToken (s : List Char) : Prop :=
  ∃ p w q, s = p ++ ('[' :: '[' :: (w ++ (']' :: ']' :: q))) ∧ w ≠ [] ∧
    ∀ c ∈ w, isLinkChar c = true

/-- Pages.Less (src/wiki.go lines 232-239): "Home" sorts first, otherwise the
strings compare lexicographically. -/
def pagesLess (a b : List Char) : Bool :=
  if a = homeTitleS then true else if b = homeTitleS then false else strLt a b

/-- Insert a into a list sorted by pagesLess. -/
def sortInsert (a : List Char) : List (List Char) → List (List Char)
  | [] => [a]
  | b :: l => if pagesLess b a then b :: sortInsert a l else a :: b :: l

/-- Model of sort.Sort(urls) with the Pages.Less order (src/wiki.go line 274).
Go's sort is an unspecified Less-sorted permutation; with this comparator any
two equivalent elements are identical strings, so the sorted list is unique and
insertion sort produces exactly it. -/
def sortPages : List (List Char) → List (List Char)
  | [] => []
  | a :: l => sortInsert a (sortPages l)

/-- The index entry fmt.Sprintf("<a href=\"/view/%s\">%s</a>", name, title)
(src/wiki.go line 270). -/
def mkUrl (name : List Char) : List Char :=
  "<a href=\"/view/".data ++ (name ++ ("\">".data ++ (convertFilenameToTitle name ++ "</a>".data)))

/-- The home entry built from rootTitle (src/wiki.go line 276). -/
def homeAnchor : List Char :=
  "<a href=\"/view/".data ++ (homeTitleS ++ ("\">".data ++ (homeTitleS ++ "</a>".data)))

/-- strings.Replace(v.Name(), ".txt", "", -1) (src/wiki.go line 264). -/
def stripTxt (n : List Char) : List Char := goReplace n txtExt []

/-- The per-entry step of updateIndex: skip dotfiles, skip the entry whose
stripped name is the root title, otherwise build the anchor. -/
def dirEntryUrl (n : List Char) : Option (List Char) :=
  if n.head? = some '.' then none
  else if stripTxt n = homeTitleS then none
  else some (mkUrl (stripTxt n))

/-- updateIndex (src/wiki.go lines 254-281) as a function of the directory
listing: build the anchors, sort them, and prepend the home anchor
unconditionally. -/
def updateIndexM (dirNames : List (List Char)) : List (List Char) :=
  homeAnchor :: sortPages (dirNames.filterMap dirEntryUrl)

/-- A Page as prepared by loadPage (markup not yet rendered). -/
structure PageM where
  title : List Char
  filename : List Char
  ingredients : List Char
  instructions : List Char
deriving DecidableEq

inductive LoadPageResult where
  | readError
  | parseCrash
  | ok (p : PageM)
deriving DecidableEq

/-- loadPage (src/wiki.go lines 48-64) over a directory state fs mapping a
file name (relative to pagesDir) to its content: read file+".txt", split it
with parseRecipe (whose panic is parseCrash), derive the title from the slug.
filepath.Base is the identity here because routed slugs contain no separator. -/
def loadPageM (fs : List Char → Option (List Char)) (file : List Char) : LoadPageResult :=
  match fs (file ++ txtExt) with
  | none => .readError
  | some body =>
    match parseRecipe body with
    | none => .parseCrash
    | some (ing, ins) => .ok ⟨convertFilenameToTitle file, file, ing, ins⟩

/-- Kinds of error a file read can produce. -/
inductive ReadErr where
  | notFound
  | permissionDenied
  | otherFailure
deriving DecidableEq

inductive ViewOutcome where
  | redirectEdit (path : List Char)
  | renderView (p : PageM)
  | renderRoot (body : List Char)
  | serverError
  | crash
deriving DecidableEq

/-- viewHandler (src/wiki.go lines 97-115) with the outcome of the underlying
file read passed in as r, and the external blackfriday Markdown engine passed
in as md.  The root branch models rootHandler (lines 83-93), which ignores the
load error and dereferences the nil page, i.e. crashes, on any read error. -/
def viewHandlerM (md : List Char → List Char) (title : List Char)
    (r : Except ReadErr (List Char)) : ViewOutcome :=
  if title = homeTitleS then
    match r with
    | .error _ => .crash
    | .ok body => .renderRoot (convertWikiMarkup (md body))
  else
    match r with
    | .error _ => .redirectEdit ("/edit/".data ++ title)
    | .ok body =>
      match parseRecipe body with
      | none => .crash
      | some (ing, ins) =>
        .renderView ⟨convertFilenameToTitle title, title,
          convertWikiMarkup (md ing), convertWikiMarkup (md ins)⟩

inductive EditOutcome where
  | renderEdit (p : PageM)
  | crash
deriving DecidableEq

/-- editHandler (src/wiki.go lines 119-125): on any load error, render a fresh
page whose Title and Filename are the requested slug. -/
def editHandlerM (title : List Char) (r : Except ReadErr (List Char)) : EditOutcome :=
  match r with
  | .error _ => .renderEdit ⟨title, title, [], []⟩
  | .ok body =>
    match parseRecipe body with
    | none => .crash
    | some (ing, ins) => .renderEdit ⟨convertFilenameToTitle title, title, ing, ins⟩

/-- Outcome of saveHandler.  ok carries the resulting directory state, whether
the old file was actually removed, and the redirect target; serverError is
http.Error on a failed write; crash is the panic on a failed removal. -/
inductive SaveOutcome where
  | ok (fs : List Char → Option (List Char)) (removedOld : Bool) (redirect : List Char)
  | serverError
  | crash

/-- saveHandler (src/wiki.go lines 128-162) over a directory state fs, with
oracles for the two fallible filesystem operations: writeFails makes the
WriteFile in Page.save fail (http.Error), removeFails makes os.Remove fail
(panic).  os.Stat success on the old file is modelled as its presence in fs. -/
def saveHandlerM (fs : List Char → Option (List Char))
    (title recipeTitle ingredients instructions : List Char)
    (writeFails removeFails : Bool) : SaveOutcome :=
  let filename := convertTitleToFilename recipeTitle
  if writeFails then .serverError
  else
    let fs1 : List Char → Option (List Char) :=
      fun k => if k = filename ++ txtExt then some (serializeRecipe ingredients instructions)
               else fs k
    if filename = title then .ok fs1 false ("/view/".data ++ filename)
    else
      match fs1 (title ++ txtExt) with
      | some _ =>
        if removeFails then .crash
        else .ok (fun k => if k = title ++ txtExt then none else fs1 k) true
          ("/view/".data ++ filename)
      | none => .ok fs1 false ("/view/".data ++ filename)

/-- The stored Home page of the C2 scenario. -/
def fsHome : List Char → Option (List Char) :=
  fun k => if k = "Home.txt".data then
    some "<!-- Ingredients -->\nSalt\n<!-- Instructions -->\nMix.\n".data
  else none

/-- A directory state holding only B.txt (used to instantiate rename claims). -/
def fsOldB : List Char → Option (List Char) :=
  fun k => if k = "B.txt".data then some "x".data else none

/-- A directory state holding only C.txt (used to instantiate frame claims). -/
def fsOneC : List Char → Option (List Char) :=
  fun k => if k = "C.txt".data then some "y".data else none

/-- The character class of the claims about slugify: letters, digits, spaces
and hyphens. -/
def allowedTitleChar (c : Char) : Bool :=
  (('a' ≤ c && c ≤ 'z') || (('A' ≤ c && c ≤ 'Z') ||
    (('0' ≤ c && c ≤ '9') || (c = ' ' || c = '-'))))

theorem splitNl_ne_nil (s : List Char) : splitNl s ≠ [] := by
  cases s with
  | nil => simp [splitNl]
  | cons c rest =>
    simp only [splitNl]
    split
    · simp
    · split <;> simp

theorem splitNl_append (a b : List Char) :
    splitNl (a ++ ('\n' :: b)) = splitNl a ++ splitNl b := by
  induction a with
  | nil => simp [splitNl]
  | cons c a' ih =>
    by_cases hc : c = '\n'
    · subst hc; simp [splitNl, ih]
    · simp only [List.cons_append, splitNl, if_neg hc, List.append_eq, ih]
      cases h' : splitNl a' with
      | nil => exact absurd h' (splitNl_ne_nil a')
      | cons p ps => simp

theorem splitNl_no_newline (s : List Char) (h : '\n' ∉ s) : splitNl s = [s] := by
  induction s with
  | nil => rfl
  | cons c rest ih =>
    have hc : c ≠ '\n' := by
      intro hh; exact h (hh ▸ List.mem_cons_self c rest)
    have hr : '\n' ∉ rest := fun hm => h (List.mem_cons_of_mem c hm)
    simp [splitNl, hc, ih hr]

theorem joinNl_splitNl (s : List Char) : joinNl (splitNl s) = s ++ ['\n'] := by
  induction s with
  | nil => rfl
  | cons c rest ih =>
    by_cases hc : c = '\n'
    · subst hc; simp [splitNl, joinNl, ih]
    · simp only [splitNl, if_neg hc]
      cases h' : splitNl rest with
      | nil => exact absurd h' (splitNl_ne_nil rest)
      | cons p ps =>
        rw [h'] at ih
        simp only [joinNl] at ih ⊢
        simp [ih]

theorem isSentinelLine_eq_false {l : List Char} :
    isSentinelLine l = false ↔ l ≠ sentinelIng ∧ l ≠ sentinelIns := by
  by_cases h1 : l = sentinelIng <;> by_cases h2 : l = sentinelIns <;>
    simp [isSentinelLine, h1, h2]

theorem parseLines_ne_none (ls : List (List Char)) :
    ∀ m1 m2 ing ins, (m1 = true ∨ m2 = true) →
      parseLines ls m1 m2 ing ins ≠ none := by
  induction ls with
  | nil => intro m1 m2 ing ins _; simp [parseLines]
  | cons l ls ih =>
    intro m1 m2 ing ins hm
    simp only [parseLines]
    split
    · exact ih _ _ _ _ (Or.inl rfl)
    · split
      · exact ih _ _ _ _ (Or.inr rfl)
      · split
        · exact ih _ _ _ _ hm
        · split
          · exact ih _ _ _ _ hm
          · rcases hm with h | h <;> simp_all

theorem parseLines_ing_acc (L : List (List Char)) (hL : ∀ l ∈ L, isSentinelLine l = false) :
    ∀ rest ing ins, parseLines (L ++ rest) true false ing ins =
      parseLines rest true false (ing ++ joinNl L) ins := by
  induction L with
  | nil => intro rest ing ins; simp [joinNl]
  | cons l L ih =>
    intro rest ing ins
    have hl := (isSentinelLine_eq_false).mp (hL l (List.mem_cons_self l L))
    have ihL : ∀ l' ∈ L, isSentinelLine l' = false :=
      fun l' hm => hL l' (List.mem_cons_of_mem l hm)
    have step : parseLines ((l :: L) ++ rest) true false ing ins =
        parseLines (L ++ rest) true false (ing ++ (l ++ ['\n'])) ins := by
      simp [parseLines, hl.1, hl.2]
    rw [step, ih ihL]
    simp [joinNl, List.append_assoc]

theorem parseLines_ins_acc (L : List (List Char)) (hL : ∀ l ∈ L, isSentinelLine l = false) :
    ∀ rest ing ins, parseLines (L ++ rest) false true ing ins =
      parseLines rest false true ing (ins ++ joinNl L) := by
  induction L with
  | nil => intro rest ing ins; simp [joinNl]
  | cons l L ih =>
    intro rest ing ins
    have hl := (isSentinelLine_eq_false).mp (hL l (List.mem_cons_self l L))
    have ihL : ∀ l' ∈ L, isSentinelLine l' = false :=
      fun l' hm => hL l' (List.mem_cons_of_mem l hm)
    have step : parseLines ((l :: L) ++ rest) false true ing ins =
        parseLines (L ++ rest) false true ing (ins ++ (l ++ ['\n'])) := by
      simp [parseLines, hl.1, hl.2]
    rw [step, ih ihL]
    simp [joinNl, List.append_assoc]

theorem findSent_append (a b : List (List Char)) :
    findSent (a ++ b) =
      (match findSent a with | some x => some x | none => findSent b) := by
  induction a with
  | nil => simp [findSent]
  | cons x a ih =>
    by_cases hx : isSentinelLine x = true
    · simp [findSent, hx]
    · simp only [Bool.not_eq_true] at hx
      simp [findSent, hx, ih]

theorem parseLines_snoc (l : List Char) (hl : isSentinelLine l = false)
    (ls : List (List Char)) :
    ∀ m1 m2 ing ins i s,
      parseLines ls m1 m2 ing ins = some (i, s) →
      parseLines (ls ++ [l]) m1 m2 ing ins =
        (match findSent ls.reverse with
         | some t => if t = sentinelIng then some (i ++ (l ++ ['\n']), s)
                     else some (i, s ++ (l ++ ['\n']))
         | none => if m1 then some (i ++ (l ++ ['\n']), s)
                   else if m2 then some (i, s ++ (l ++ ['\n'])) else none) := by
  have hl' := isSentinelLine_eq_false.mp hl
  induction ls with
  | nil =>
    intro m1 m2 ing ins i s h
    simp only [parseLines, Option.some.injEq, Prod.mk.injEq] at h
    obtain ⟨rfl, rfl⟩ := h
    simp [parseLines, findSent, hl'.1, hl'.2]
  | cons x ls ih =>
    intro m1 m2 ing ins i s h
    by_cases hx1 : x = sentinelIng
    · subst hx1
      have hstep : ∀ r1 : List (List Char), parseLines (sentinelIng :: r1) m1 m2 ing ins =
          parseLines r1 true false ing ins := by
        intro r1; simp [parseLines]
      rw [hstep] at h
      have hrec := ih true false ing ins i s h
      rw [List.cons_append, hstep, hrec, List.reverse_cons, findSent_append]
      cases hfs : findSent ls.reverse with
      | some t => simp
      | none => simp [findSent, isSentinelLine]
    · by_cases hx2 : x = sentinelIns
      · subst hx2
        have hstep : ∀ r1 : List (List Char), parseLines (sentinelIns :: r1) m1 m2 ing ins =
            parseLines r1 false true ing ins := by
          intro r1
          simp [parseLines, show sentinelIns ≠ sentinelIng by decide]
        rw [hstep] at h
        have hrec := ih false true ing ins i s h
        rw [List.cons_append, hstep, hrec, List.reverse_cons, findSent_append]
        cases hfs : findSent ls.reverse with
        | some t => simp
        | none =>
          simp [findSent, isSentinelLine, show sentinelIns ≠ sentinelIng by decide]
      · have hxs : isSentinelLine x = false := isSentinelLine_eq_false.mpr ⟨hx1, hx2⟩
        by_cases hm1 : m1 = true
        · subst hm1
          have hstep : ∀ r1 : List (List Char), parseLines (x :: r1) true m2 ing ins =
              parseLines r1 true m2 (ing ++ (x ++ ['\n'])) ins := by
            intro r1; simp [parseLines, hx1, hx2]
          rw [hstep] at h
          have hrec := ih true m2 (ing ++ (x ++ ['\n'])) ins i s h
          rw [List.cons_append, hstep, hrec, List.reverse_cons, findSent_append]
          cases hfs : findSent ls.reverse with
          | some t => simp
          | none => simp [findSent, hxs]
        · simp only [Bool.not_eq_true] at hm1
          subst hm1
          by_cases hm2 : m2 = true
          · subst hm2
            have hstep : ∀ r1 : List (List Char), parseLines (x :: r1) false true ing ins =
                parseLines r1 false true ing (ins ++ (x ++ ['\n'])) := by
              intro r1; simp [parseLines, hx1, hx2]
            rw [hstep] at h
            have hrec := ih false true ing (ins ++ (x ++ ['\n'])) i s h
            rw [List.cons_append, hstep, hrec, List.reverse_cons, findSent_append]
            cases hfs : findSent ls.reverse with
            | some t => simp
            | none => simp [findSent, hxs]
          · simp only [Bool.not_eq_true] at hm2
            subst hm2
            simp [parseLines, hx1, hx2] at h

theorem parseLines_all_sent (ls : List (List Char))
    (h : ∀ l ∈ ls, isSentinelLine l = true) :
    ∀ m1 m2 ing ins, parseLines ls m1 m2 ing ins = some (ing, ins) := by
  induction ls with
  | nil => intro m1 m2 ing ins; simp [parseLines]
  | cons x ls ih =>
    intro m1 m2 ing ins
    have hx := h x (List.mem_cons_self x ls)
    have ihs : ∀ l ∈ ls, isSentinelLine l = true :=
      fun l hm => h l (List.mem_cons_of_mem x hm)
    by_cases hx1 : x = sentinelIng
    · subst hx1; simpa [parseLines] using ih ihs true false ing ins
    · by_cases hx2 : x = sentinelIns
      · subst hx2
        simpa [parseLines, show sentinelIns ≠ sentinelIng by decide] using
          ih ihs false true ing ins
      · rw [isSentinelLine_eq_false.mpr ⟨hx1, hx2⟩] at hx
        exact absurd hx (by simp)

/-- C1 counterexample: "Salt" and "Mix." contain no sentinel line, yet parsing
the serialized form does not return them unchanged (each section gains a
trailing newline). -/
theorem c1_counterexample :
    (∀ l ∈ splitNl "Salt".data, isSentinelLine l = false) ∧
    (∀ l ∈ splitNl "Mix.".data, isSentinelLine l = false) ∧
    parseRecipe (serializeRecipe "Salt".data "Mix.".data) ≠
      some ("Salt".data, "Mix.".data) := by
  refine ⟨by decide, by decide, by decide⟩

/-- C1 (amended): for ingredients and instructions none of whose lines is a
sentinel line, parsing the serialized body returns each original text with one
newline appended: parse(serialize(ing, ins)) = (ing ++ "\n", ins ++ "\n"). -/
theorem c1_amended_roundtrip (ingredients instructions : List Char)
    (hing : ∀ l ∈ splitNl ingredients, isSentinelLine l = false)
    (hins : ∀ l ∈ splitNl instructions, isSentinelLine l = false) :
    parseRecipe (serializeRecipe ingredients instructions) =
      some (ingredients ++ ['\n'], instructions ++ ['\n']) := by
  unfold parseRecipe serializeRecipe
  rw [splitNl_append, splitNl_append, splitNl_append,
    splitNl_no_newline sentinelIng (by decide), splitNl_no_newline sentinelIns (by decide)]
  have step1 : ∀ r1 : List (List Char), ∀ ing ins : List Char,
      parseLines (sentinelIng :: r1) false false ing ins =
        parseLines r1 true false ing ins := by
    intro r1 ing ins; simp [parseLines]
  have step2 : ∀ r1 : List (List Char), ∀ ing ins : List Char,
      parseLines (sentinelIns :: r1) true false ing ins =
        parseLines r1 false true ing ins := by
    intro r1 ing ins
    simp [parseLines, show sentinelIns ≠ sentinelIng by decide]
  simp only [List.singleton_append, List.cons_append, List.nil_append]
  rw [step1, parseLines_ing_acc _ hing, step2, ← List.append_nil (splitNl instructions),
    parseLines_ins_acc _ hins]
  simp [parseLines, joinNl_splitNl]

/-- C1 witness: the amended round-trip at ingredients "Salt", instructions
"Mix.". -/
theorem c1_amended_roundtrip_witness :
    parseRecipe (serializeRecipe "Salt".data "Mix.".data) =
      some ("Salt".data ++ ['\n'], "Mix.".data ++ ['\n']) :=
  c1_amended_roundtrip "Salt".data "Mix.".data (by decide) (by decide)

/-- C2 counterexample: loading and parsing the stored Home content does not
give instructions "Mix.\n"; the trailing empty line after the final newline
makes the instructions section "Mix.\n\n". -/
theorem c2_counterexample :
    loadPageM fsHome "Home".data ≠
      LoadPageResult.ok ⟨"Home".data, "Home".data, "Salt\n".data, "Mix.\n".data⟩ := by
  decide

/-- C2 (amended): for the stored content "<!-- Ingredients -->\nSalt\n<!--
Instructions -->\nMix.\n", loading and parsing yields ingredients "Salt\n" and
instructions "Mix.\n\n" (the final newline contributes one more empty line). -/
theorem c2_amended_scenario :
    loadPageM fsHome "Home".data =
      LoadPageResult.ok ⟨"Home".data, "Home".data, "Salt\n".data, "Mix.\n\n".data⟩ := by
  decide

/-- C6: the recipe parser aborts (none) exactly when the first line of the
content is not a sentinel line; a non-sentinel line appended to parsed content
lands, newline-terminated, in the section selected by the most recent sentinel
line; and content consisting only of sentinel lines parses to two empty
sections. -/
theorem c6_parser_abort (content l i s : List Char) :
    ((parseRecipe content = none) ↔ isSentinelLine (splitNl content).headI = false) ∧
    (parseRecipe content = some (i, s) → '\n' ∉ l → isSentinelLine l = false →
      ((findSent (splitNl content).reverse = some sentinelIng →
        parseRecipe (content ++ ('\n' :: l)) = some (i ++ (l ++ ['\n']), s)) ∧
       (findSent (splitNl content).reverse = some sentinelIns →
        parseRecipe (content ++ ('\n' :: l)) = some (i, s ++ (l ++ ['\n']))))) ∧
    ((∀ l' ∈ splitNl content, isSentinelLine l' = true) →
      parseRecipe content = some ([], [])) := by
  obtain ⟨p, ps, hps⟩ := List.exists_cons_of_ne_nil (splitNl_ne_nil content)
  refine ⟨?_, ?_, ?_⟩
  · unfold parseRecipe
    rw [hps]
    simp only [List.headI]
    by_cases hsp : isSentinelLine p = true
    · rw [hsp]
      have hne : parseLines (p :: ps) false false [] [] ≠ none := by
        by_cases h1 : p = sentinelIng
        · subst h1
          simp only [parseLines, if_pos rfl]
          exact parseLines_ne_none ps true false [] [] (Or.inl rfl)
        · have h2 : p = sentinelIns := by
            by_contra h2
            rw [isSentinelLine_eq_false.mpr ⟨h1, h2⟩] at hsp
            exact absurd hsp (by simp)
          subst h2
          simp only [parseLines, if_neg (show sentinelIns ≠ sentinelIng by decide),
            if_pos rfl]
          exact parseLines_ne_none ps false true [] [] (Or.inr rfl)
      simp [hne]
    · simp only [Bool.not_eq_true] at hsp
      have hp := isSentinelLine_eq_false.mp hsp
      rw [hsp]
      simp [parseLines, hp.1, hp.2]
  · intro hsome hnl hlsent
    have hsplit : splitNl (content ++ ('\n' :: l)) = splitNl content ++ [l] := by
      rw [splitNl_append, splitNl_no_newline l hnl]
    have hmain := parseLines_snoc l hlsent (splitNl content) false false [] [] i s hsome
    constructor
    · intro hfind
      unfold parseRecipe
      rw [hsplit, hmain, hfind]
      simp
    · intro hfind
      unfold parseRecipe
      rw [hsplit, hmain, hfind]
      simp [show sentinelIns ≠ sentinelIng by decide]
  · intro hall
    exact parseLines_all_sent (splitNl content) hall false false [] []

/-- C6 witness: an ingredients-only content parses to two empty sections, and
appending the line "Salt" after it lands in the ingredients section with a
trailing newline. -/
theorem c6_parser_abort_witness :
    parseRecipe "<!-- Ingredients -->".data = some ([], []) ∧
    parseRecipe ("<!-- Ingredients -->".data ++ ('\n' :: "Salt".data)) =
      some ([] ++ ("Salt".data ++ ['\n']), []) := by
  have h := c6_parser_abort "<!-- Ingredients -->".data "Salt".data [] []
  have hc : parseRecipe "<!-- Ingredients -->".data = some ([], []) :=
    h.2.2 (by decide)
  exact ⟨hc, (h.2.1 hc (by decide) (by decide)).1 (by decide)⟩

theorem replaceAux_space (f : Nat) : ∀ t : List Char, t.length ≤ f →
    replaceAux [' '] ['-'] f t = t.map (fun c => if c = ' ' then '-' else c) := by
  induction f with
  | zero =>
    intro t ht
    cases t with
    | nil => rfl
    | cons c cs => simp at ht
  | succ f ih =>
    intro t ht
    cases t with
    | nil => rfl
    | cons c cs =>
      have hlen : cs.length ≤ f := Nat.le_of_succ_le_succ (by simpa using ht)
      by_cases hc : c = ' '
      · subst hc
        simp [replaceAux, stripStart, ih cs hlen]
      · simp [replaceAux, stripStart, hc, ih cs hlen]

/-- C8: on titles made of letters, digits, spaces and hyphens, slugify is
exactly the character map sending each space to a hyphen (so it is a pure,
stable function of the title), and its output contains no path separator. -/
theorem c8_slugify (t : List Char) (h : ∀ c ∈ t, allowedTitleChar c = true) :
    convertTitleToFilename t = t.map (fun c => if c = ' ' then '-' else c) ∧
    ∀ c ∈ convertTitleToFilename t, c ≠ '/' ∧ c ≠ '\\' := by
  have hmap : convertTitleToFilename t = t.map (fun c => if c = ' ' then '-' else c) :=
    replaceAux_space t.length t (Nat.le_refl _)
  refine ⟨hmap, ?_⟩
  intro c hc
  rw [hmap] at hc
  obtain ⟨a, ha, rfl⟩ := List.mem_map.mp hc
  have hall := h a ha
  by_cases haa : a = ' '
  · subst haa; simp
  · simp only [if_neg haa]
    constructor
    · intro hh; rw [hh] at hall; exact absurd hall (by decide)
    · intro hh; rw [hh] at hall; exact absurd hall (by decide)

/-- C8 witness: slugify at the title "Banana Bread". -/
theorem c8_slugify_witness :
    convertTitleToFilename "Banana Bread".data =
      ("Banana Bread".data).map (fun c => if c = ' ' then '-' else c) :=
  (c8_slugify "Banana Bread".data (by decide)).1

/-- C7 counterexample: a load failing with a permission error (not a missing
file) is still answered with a redirect into the edit flow, not with the
server-side failure the claim requires. -/
theorem c7_counterexample :
    viewHandlerM (fun s => s) "X".data (Except.error ReadErr.permissionDenied) =
      ViewOutcome.redirectEdit "/edit/X".data ∧
    ViewOutcome.redirectEdit "/edit/X".data ≠ ViewOutcome.serverError := by
  refine ⟨by decide, by decide⟩

/-- C7 (amended): on a non-root page, every load error — missing file or any
other I/O failure alike — sends the caller into the edit/create flow (redirect
for view, fresh empty page for edit); no load error is surfaced as a
server-side failure. -/
theorem c7_amended_load_errors (e : ReadErr) (md : List Char → List Char)
    (title : List Char) (h : title ≠ homeTitleS) :
    viewHandlerM md title (Except.error e) =
      ViewOutcome.redirectEdit ("/edit/".data ++ title) ∧
    editHandlerM title (Except.error e) =
      EditOutcome.renderEdit ⟨title, title, [], []⟩ := by
  constructor
  · simp [viewHandlerM, h]
  · rfl

/-- C7 witness: the amended statement at title "X" with a permission error. -/
theorem c7_amended_load_errors_witness :
    viewHandlerM (fun s => s) "X".data (Except.error ReadErr.permissionDenied) =
      ViewOutcome.redirectEdit ("/edit/".data ++ "X".data) ∧
    editHandlerM "X".data (Except.error ReadErr.permissionDenied) =
      EditOutcome.renderEdit ⟨"X".data, "X".data, [], []⟩ :=
  c7_amended_load_errors ReadErr.permissionDenied (fun s => s) "X".data (by decide)

theorem txt_key_ne {a b : List Char} (h : a ≠ b) : a ++ txtExt ≠ b ++ txtExt :=
  fun hh => h (List.append_cancel_right hh)

/-- C5: when a save targets a different slug than the page previously used,
the outcome is success with the old file untouched (and no removal performed)
when the old file did not exist — for either value of the removal-failure
oracle; when the old file existed and removal succeeds, the old entry is gone
and the new slug holds the serialized body, with the removal recorded; and
when the old file existed but removal fails, the request dies (panic). -/
theorem c5_rename_on_save (fs : List Char → Option (List Char))
    (title recipeTitle ingredients instructions : List Char)
    (hrn : convertTitleToFilename recipeTitle ≠ title) :
    (fs (title ++ txtExt) = none →
      ∀ removeFails,
        saveHandlerM fs title recipeTitle ingredients instructions false removeFails =
          SaveOutcome.ok
            (fun k => if k = convertTitleToFilename recipeTitle ++ txtExt then
                some (serializeRecipe ingredients instructions) else fs k)
            false ("/view/".data ++ convertTitleToFilename recipeTitle)) ∧
    ((fs (title ++ txtExt)).isSome = true →
      ∀ fs2 rm rd,
        saveHandlerM fs title recipeTitle ingredients instructions false false =
          SaveOutcome.ok fs2 rm rd →
        rm = true ∧ fs2 (title ++ txtExt) = none ∧
        fs2 (convertTitleToFilename recipeTitle ++ txtExt) =
          some (serializeRecipe ingredients instructions)) ∧
    ((fs (title ++ txtExt)).isSome = true →
      saveHandlerM fs title recipeTitle ingredients instructions false true =
        SaveOutcome.crash) := by
  have hne : title ++ txtExt ≠ convertTitleToFilename recipeTitle ++ txtExt :=
    txt_key_ne (fun hh => hrn hh.symm)
  refine ⟨?_, ?_, ?_⟩
  · intro h0 removeFails
    simp [saveHandlerM, hrn, hne, h0]
  · intro hsome fs2 rm rd h2
    obtain ⟨v, hv⟩ := Option.isSome_iff_exists.mp hsome
    have hcompute :
        saveHandlerM fs title recipeTitle ingredients instructions false false =
          SaveOutcome.ok
            (fun k => if k = title ++ txtExt then none
              else if k = convertTitleToFilename recipeTitle ++ txtExt then
                some (serializeRecipe ingredients instructions) else fs k)
            true ("/view/".data ++ convertTitleToFilename recipeTitle) := by
      simp [saveHandlerM, hrn, hne, hv]
    rw [hcompute] at h2
    injection h2 with hfs hrm hrd
    refine ⟨hrm.symm, ?_, ?_⟩
    · rw [← hfs]; simp
    · rw [← hfs]; simp [hrn]
  · intro hsome
    obtain ⟨v, hv⟩ := Option.isSome_iff_exists.mp hsome
    simp [saveHandlerM, hrn, hne, hv]

/-- C5 witness: renaming page B to "A B" over a directory holding only B.txt:
with a failing removal the request dies; this instantiates the third conjunct
of the rename theorem. -/
theorem c5_rename_on_save_witness :
    saveHandlerM fsOldB "B".data "A B".data "i".data "j".data false true =
      SaveOutcome.crash :=
  (c5_rename_on_save fsOldB "B".data "A B".data "i".data "j".data
    (by decide)).2.2 (by decide)

/-- C10: any successful save changes at most the entry for the new slug (which
afterwards holds the serialized body) and the entry for the old slug (which in
a rename is either unchanged or removed); every other file keeps its content. -/
theorem c10_save_frame (fs : List Char → Option (List Char))
    (title recipeTitle ingredients instructions : List Char)
    (removeFails : Bool) (fs2 : List Char → Option (List Char)) (rm : Bool)
    (rd : List Char)
    (h : saveHandlerM fs title recipeTitle ingredients instructions false removeFails =
      SaveOutcome.ok fs2 rm rd) :
    (∀ k, k ≠ convertTitleToFilename recipeTitle ++ txtExt → k ≠ title ++ txtExt →
      fs2 k = fs k) ∧
    fs2 (convertTitleToFilename recipeTitle ++ txtExt) =
      some (serializeRecipe ingredients instructions) ∧
    (convertTitleToFilename recipeTitle ≠ title →
      (fs2 (title ++ txtExt) = fs (title ++ txtExt) ∨ fs2 (title ++ txtExt) = none)) := by
  by_cases hrn : convertTitleToFilename recipeTitle = title
  · have hcompute :
        saveHandlerM fs title recipeTitle ingredients instructions false removeFails =
          SaveOutcome.ok
            (fun k => if k = convertTitleToFilename recipeTitle ++ txtExt then
                some (serializeRecipe ingredients instructions) else fs k)
            false ("/view/".data ++ convertTitleToFilename recipeTitle) := by
      simp [saveHandlerM, hrn]
    rw [hcompute] at h
    injection h with hfs hrm hrd
    refine ⟨?_, ?_, ?_⟩
    · intro k hk1 _; rw [← hfs]; simp [hk1]
    · rw [← hfs]; simp
    · intro hcon; exact absurd hrn hcon
  · have hne : title ++ txtExt ≠ convertTitleToFilename recipeTitle ++ txtExt :=
      txt_key_ne (fun hh => hrn hh.symm)
    have hrn' : ¬title = convertTitleToFilename recipeTitle := fun hh => hrn hh.symm
    cases hfs0 : fs (title ++ txtExt) with
    | none =>
      have hcompute :
          saveHandlerM fs title recipeTitle ingredients instructions false removeFails =
            SaveOutcome.ok
              (fun k => if k = convertTitleToFilename recipeTitle ++ txtExt then
                  some (serializeRecipe ingredients instructions) else fs k)
              false ("/view/".data ++ convertTitleToFilename recipeTitle) := by
        simp [saveHandlerM, hrn, hne, hfs0]
      rw [hcompute] at h
      injection h with hfs hrm hrd
      refine ⟨?_, ?_, ?_⟩
      · intro k hk1 _; rw [← hfs]; simp [hk1]
      · rw [← hfs]; simp
      · intro _; left; rw [← hfs]; simp [hne, hrn', hfs0]
    | some v =>
      cases hrf : removeFails with
      | true =>
        rw [hrf] at h
        have hcompute :
            saveHandlerM fs title recipeTitle ingredients instructions false true =
              SaveOutcome.crash := by
          simp [saveHandlerM, hrn, hne, hfs0]
        rw [hcompute] at h
        cases h
      | false =>
        rw [hrf] at h
        have hcompute :
            saveHandlerM fs title recipeTitle ingredients instructions false false =
              SaveOutcome.ok
                (fun k => if k = title ++ txtExt then none
                  else if k = convertTitleToFilename recipeTitle ++ txtExt then
                    some (serializeRecipe ingredients instructions) else fs k)
                true ("/view/".data ++ convertTitleToFilename recipeTitle) := by
          simp [saveHandlerM, hrn, hne, hfs0]
        rw [hcompute] at h
        injection h with hfs hrm hrd
        refine ⟨?_, ?_, ?_⟩
        · intro k hk1 hk2; rw [← hfs]; simp [hk1, hk2]
        · rw [← hfs]; simp [hrn]
        · intro _; rw [← hfs]; simp

/-- C10 witness: saving page "A" (reached as slug "B", a rename with no old
file) over a directory holding only C.txt leaves C.txt unchanged; this
instantiates the frame conjunct at the key "C.txt". -/
theorem c10_save_frame_witness :
    (fun k => if k = "A".data ++ txtExt then
        some (serializeRecipe "i".data "j".data) else fsOneC k) "C.txt".data =
      fsOneC "C.txt".data :=
  (c10_save_frame fsOneC "B".data "A".data "i".data "j".data false
    (fun k => if k = "A".data ++ txtExt then
      some (serializeRecipe "i".data "j".data) else fsOneC k)
    false ("/view/".data ++ "A".data) rfl).1 "C.txt".data (by decide) (by decide)

theorem takeWhile_all_append {p : Char → Bool} {w : List Char}
    (hw : ∀ c ∈ w, p c = true) {x : Char} (hx : p x = false) (t : List Char) :
    (w ++ (x :: t)).takeWhile p = w ∧ (w ++ (x :: t)).dropWhile p = x :: t := by
  induction w with
  | nil => simp [List.takeWhile_cons, List.dropWhile_cons, hx]
  | cons a w ih =>
    have ha := hw a (List.mem_cons_self a w)
    have hw' : ∀ c ∈ w, p c = true := fun c hc => hw c (List.mem_cons_of_mem a hc)
    obtain ⟨h1, h2⟩ := ih hw'
    simp [List.takeWhile_cons, List.dropWhile_cons, ha, h1, h2]

theorem matchLink_some {s w r : List Char} (h : matchLink s = some (w, r)) :
    s = '[' :: '[' :: (w ++ (']' :: ']' :: r)) ∧ w ≠ [] ∧
      ∀ c ∈ w, isLinkChar c = true := by
  match s with
  | [] => simp [matchLink] at h
  | [c1] => simp [matchLink] at h
  | c1 :: c2 :: rest =>
    simp only [matchLink] at h
    by_cases h12 : c1 = '[' ∧ c2 = '['
    · rw [if_pos h12] at h
      cases hd : rest.dropWhile isLinkChar with
      | nil => rw [hd] at h; exact Option.noConfusion h
      | cons d1 ds =>
        cases ds with
        | nil => rw [hd] at h; exact Option.noConfusion h
        | cons d2 r2 =>
          rw [hd] at h
          have h' : (if d1 = ']' ∧ d2 = ']' ∧ rest.takeWhile isLinkChar ≠ [] then
              some (rest.takeWhile isLinkChar, r2) else none) = some (w, r) := h
          by_cases hcond : d1 = ']' ∧ d2 = ']' ∧ rest.takeWhile isLinkChar ≠ []
          · rw [if_pos hcond] at h'
            simp only [Option.some.injEq, Prod.mk.injEq] at h'
            obtain ⟨hw, hr⟩ := h'
            obtain ⟨hd1, hd2, hne⟩ := hcond
            refine ⟨?_, ?_, ?_⟩
            · rw [h12.1, h12.2, ← hw, ← hr]
              have htd := List.takeWhile_append_dropWhile isLinkChar rest
              rw [hd, hd1, hd2] at htd
              exact congrArg (fun t => '[' :: '[' :: t) htd.symm
            · rw [← hw]; exact hne
            · intro c hc
              rw [← hw] at hc
              exact List.mem_takeWhile_imp hc
          · rw [if_neg hcond] at h'; exact Option.noConfusion h'
    · rw [if_neg h12] at h; exact Option.noConfusion h

theorem matchLink_token {w : List Char} (hw1 : w ≠ [])
    (hw2 : ∀ c ∈ w, isLinkChar c = true) (q : List Char) :
    matchLink ('[' :: '[' :: (w ++ (']' :: ']' :: q))) = some (w, q) := by
  obtain ⟨h1, h2⟩ := takeWhile_all_append hw2
    (show isLinkChar ']' = false by decide) (']' :: q)
  simp only [matchLink, h2, h1]
  simp [hw1]

theorem matchLink_length {s w r : List Char} (h : matchLink s = some (w, r)) :
    r.length + 5 ≤ s.length := by
  obtain ⟨hs, hw, _⟩ := matchLink_some h
  subst hs
  have : 1 ≤ w.length := List.length_pos.mpr hw
  simp [List.length_append]
  omega

theorem convertAux_congr : ∀ f1 f2 s, s.length ≤ f1 → s.length ≤ f2 →
    convertAux f1 s = convertAux f2 s := by
  intro f1
  induction f1 with
  | zero =>
    intro f2 s h1 _
    have : s = [] := List.eq_nil_of_length_eq_zero (Nat.le_zero.mp h1)
    subst this
    cases f2 <;> rfl
  | succ f1 ih =>
    intro f2 s h1 h2
    cases s with
    | nil => cases f2 <;> rfl
    | cons c rest =>
      cases f2 with
      | zero => simp at h2
      | succ f2 =>
        simp only [List.length_cons, Nat.succ_le_succ_iff] at h1 h2
        cases hm : matchLink (c :: rest) with
        | some val =>
          obtain ⟨w, r⟩ := val
          have hlen := matchLink_length hm
          simp only [List.length_cons] at hlen
          simp only [convertAux, hm]
          rw [ih f2 r (by omega) (by omega)]
        | none =>
          simp only [convertAux, hm]
          rw [ih f2 rest h1 h2]

theorem convertWikiMarkup_cons_some {c : Char} {rest w r : List Char}
    (h : matchLink (c :: rest) = some (w, r)) :
    convertWikiMarkup (c :: rest) = linkRepl w ++ convertWikiMarkup r := by
  have hlen := matchLink_length h
  simp only [List.length_cons] at hlen
  unfold convertWikiMarkup
  simp only [List.length_cons, convertAux, h]
  congr 1
  exact convertAux_congr rest.length r.length r (by omega) (Nat.le_refl _)

theorem convertWikiMarkup_cons_none {c : Char} {rest : List Char}
    (h : matchLink (c :: rest) = none) :
    convertWikiMarkup (c :: rest) = c :: convertWikiMarkup rest := by
  unfold convertWikiMarkup
  simp only [List.length_cons, convertAux, h]

theorem hasLinkToken_cons {c : Char} {s : List Char} (h : hasLinkToken s) :
    hasLinkToken (c :: s) := by
  obtain ⟨p, w, q, rfl, hw1, hw2⟩ := h
  exact ⟨c :: p, w, q, rfl, hw1, hw2⟩

theorem hasLinkToken_bracket {s : List Char} (h : hasLinkToken s) : '[' ∈ s := by
  obtain ⟨p, w, q, rfl, _, _⟩ := h
  simp

theorem matchLink_some_token {s w r : List Char} (h : matchLink s = some (w, r)) :
    hasLinkToken s := by
  obtain ⟨hs, hw1, hw2⟩ := matchLink_some h
  exact ⟨[], w, r, by rw [hs]; rfl, hw1, hw2⟩

theorem matchLink_mid_none {c : Char} {p w q : List Char}
    (hnl : ¬hasLinkToken (c :: p)) (hw1 : w ≠ [])
    (hw2 : ∀ a ∈ w, isLinkChar a = true) :
    matchLink ((c :: p) ++ ('[' :: '[' :: (w ++ (']' :: ']' :: q)))) = none := by
  cases hm : matchLink ((c :: p) ++ ('[' :: '[' :: (w ++ (']' :: ']' :: q)))) with
  | none => rfl
  | some val =>
    exfalso
    obtain ⟨w', r'⟩ := val
    obtain ⟨hs, hw1', hw2'⟩ := matchLink_some hm
    rw [List.cons_append] at hs
    injection hs with hc htail
    cases p with
    | nil =>
      rw [List.nil_append] at htail
      injection htail with h1 h2
      cases w' with
      | nil => exact hw1' rfl
      | cons a w'' =>
        rw [List.cons_append] at h2
        injection h2 with h3 _
        have ha := hw2' a (List.mem_cons_self a w'')
        rw [← h3] at ha
        exact absurd ha (by decide)
    | cons d p' =>
      rw [List.cons_append] at htail
      injection htail with hd htail2
      rcases List.append_eq_append_iff.mp htail2 with ⟨e, he1, he2⟩ | ⟨e, he1, he2⟩
      · cases e with
        | nil =>
          rw [List.nil_append] at he2
          injection he2 with hx _
          exact absurd hx (by decide)
        | cons x e' =>
          rw [List.cons_append] at he2
          injection he2 with hx _
          have hmem : x ∈ w' := by
            rw [he1]
            exact List.mem_append_right p' (List.mem_cons_self x e')
          have := hw2' x hmem
          rw [← hx] at this
          exact absurd this (by decide)
      · cases e with
        | nil =>
          rw [List.nil_append] at he2
          injection he2 with hx _
          exact absurd hx (by decide)
        | cons x e' =>
          rw [List.cons_append] at he2
          injection he2 with hx he2'
          cases e' with
          | nil =>
            rw [List.nil_append] at he2'
            injection he2' with hy _
            exact absurd hy (by decide)
          | cons y e'' =>
            rw [List.cons_append] at he2'
            injection he2' with hy hr'
            apply hnl
            refine ⟨[], w', e'', ?_, hw1', hw2'⟩
            rw [List.nil_append, hc, hd, he1, ← hx, ← hy]

/-- C9: the wiki-link substitution is the identity on any text containing no
substring matching the wikiLink token pattern. -/
theorem c9_identity_on_plain (s : List Char) (h : ¬hasLinkToken s) :
    convertWikiMarkup s = s := by
  induction s with
  | nil => rfl
  | cons c rest ih =>
    cases hm : matchLink (c :: rest) with
    | some val =>
      obtain ⟨w, r⟩ := val
      exact absurd (matchLink_some_token hm) h
    | none =>
      rw [convertWikiMarkup_cons_none hm]
      rw [ih (fun hr => h (hasLinkToken_cons hr))]

/-- C9 witness: a plain sentence is returned unchanged. -/
theorem c9_identity_on_plain_witness :
    convertWikiMarkup "plain text, no links.".data = "plain text, no links.".data :=
  c9_identity_on_plain "plain text, no links.".data
    (fun h => absurd (hasLinkToken_bracket h) (by decide))

/-- C3 counterexample: rendering the token [[A B]] keeps the title verbatim in
the href (space included); it does not slugify it to A-B as the claim states. -/
theorem c3_counterexample :
    convertWikiMarkup "[[A B]]".data = "<a href=\"/view/A B\">A B</a>".data ∧
    convertWikiMarkup "[[A B]]".data ≠ "<a href=\"/view/A-B\">A B</a>".data := by
  refine ⟨by decide, by decide⟩

/-- C3 (amended): the wiki-link pass rewrites every occurrence of a token
[[T]] (T a nonempty string of letters, digits, spaces and hyphens) into
<a href="/view/T">T</a> with T taken verbatim — no slugification — and leaves
the surrounding text unchanged; rendering [[Home]] yields
<a href="/view/Home">Home</a>. -/
theorem c3_amended_wikilink :
    (∀ p w q : List Char, ¬hasLinkToken p → w ≠ [] →
      (∀ a ∈ w, isLinkChar a = true) →
      convertWikiMarkup (p ++ ('[' :: '[' :: (w ++ (']' :: ']' :: q)))) =
        p ++ (linkRepl w ++ convertWikiMarkup q)) ∧
    convertWikiMarkup "[[Home]]".data = "<a href=\"/view/Home\">Home</a>".data := by
  constructor
  · intro p
    induction p with
    | nil =>
      intro w q hnl hw1 hw2
      rw [List.nil_append, convertWikiMarkup_cons_some (matchLink_token hw1 hw2 q),
        List.nil_append]
    | cons c p' ih =>
      intro w q hnl hw1 hw2
      have hnone := matchLink_mid_none hnl hw1 hw2 (q := q)
      rw [List.cons_append] at hnone
      rw [List.cons_append, convertWikiMarkup_cons_none hnone,
        ih w q (fun hr => hnl (hasLinkToken_cons hr)) hw1 hw2, List.cons_append]
  · decide

/-- C3 witness: the amended substitution at surrounding text "ab" / "cd" and
token [[Home]]. -/
theorem c3_amended_wikilink_witness :
    convertWikiMarkup ("ab".data ++ ('[' :: '[' :: ("Home".data ++ (']' :: ']' :: "cd".data)))) =
      "ab".data ++ (linkRepl "Home".data ++ convertWikiMarkup "cd".data) :=
  c3_amended_wikilink.1 "ab".data "Home".data "cd".data
    (fun h => absurd (hasLinkToken_bracket h) (by decide)) (by decide) (by decide)

theorem strLt_irrefl (a : List Char) : strLt a a = false := by
  induction a with
  | nil => rfl
  | cons x xs ih => simp [strLt, ih]

theorem strLt_trans : ∀ a b c : List Char,
    strLt a b = true → strLt b c = true → strLt a c = true := by
  intro a
  induction a with
  | nil =>
    intro b c hab hbc
    cases b with
    | nil => simp [strLt] at hab
    | cons y ys =>
      cases c with
      | nil => simp [strLt] at hbc
      | cons z zs => rfl
  | cons x xs ih =>
    intro b c hab hbc
    cases b with
    | nil => simp [strLt] at hab
    | cons y ys =>
      cases c with
      | nil => simp [strLt] at hbc
      | cons z zs =>
        simp only [strLt] at hab hbc ⊢
        by_cases hxy : x < y
        · by_cases hyz : y < z
          · simp [lt_trans hxy hyz]
          · rw [if_neg hyz] at hbc
            by_cases hzy : z < y
            · rw [if_pos hzy] at hbc; exact absurd hbc (by simp)
            · have hyz' : y = z := le_antisymm (not_lt.mp hzy) (not_lt.mp hyz)
              subst hyz'
              simp [hxy]
        · rw [if_neg hxy] at hab
          by_cases hyx : y < x
          · rw [if_pos hyx] at hab; exact absurd hab (by simp)
          · rw [if_neg hyx] at hab
            have hxy' : x = y := le_antisymm (not_lt.mp hyx) (not_lt.mp hxy)
            subst hxy'
            by_cases hxz : x < z
            · simp [hxz]
            · rw [if_neg hxz] at hbc ⊢
              by_cases hzx : z < x
              · rw [if_pos hzx] at hbc; exact absurd hbc (by simp)
              · rw [if_neg hzx] at hbc ⊢
                exact ih ys zs hab hbc

theorem strLt_conn : ∀ a b : List Char,
    strLt a b = false → strLt b a = false → a = b := by
  intro a
  induction a with
  | nil =>
    intro b h1 _
    cases b with
    | nil => rfl
    | cons y ys => simp [strLt] at h1
  | cons x xs ih =>
    intro b h1 h2
    cases b with
    | nil => simp [strLt] at h2
    | cons y ys =>
      simp only [strLt] at h1 h2
      by_cases hxy : x < y
      · rw [if_pos hxy] at h1; exact absurd h1 (by simp)
      · rw [if_neg hxy] at h1
        by_cases hyx : y < x
        · rw [if_pos hyx] at h2; exact absurd h2 (by simp)
        · rw [if_neg hyx] at h1
          rw [if_neg hyx, if_neg hxy] at h2
          have hxy' : x = y := le_antisymm (not_lt.mp hyx) (not_lt.mp hxy)
          rw [hxy', ih ys h1 h2]

theorem strLt_asymm {a b : List Char} (h : strLt a b = true) : strLt b a = false := by
  cases hval : strLt b a with
  | false => rfl
  | true =>
    have := strLt_trans a b a h hval
    rw [strLt_irrefl] at this
    exact absurd this (by simp)

theorem pagesLess_of_ne {a b : List Char} (ha : a ≠ homeTitleS) (hb : b ≠ homeTitleS) :
    pagesLess a b = strLt a b := by
  simp [pagesLess, ha, hb]

theorem pagesNotLess_trans {a b c : List Char}
    (ha : a ≠ homeTitleS) (hb : b ≠ homeTitleS) (hc : c ≠ homeTitleS)
    (h1 : pagesLess b a = false) (h2 : pagesLess c b = false) :
    pagesLess c a = false := by
  rw [pagesLess_of_ne hb ha] at h1
  rw [pagesLess_of_ne hc hb] at h2
  rw [pagesLess_of_ne hc ha]
  cases hca : strLt c a with
  | false => rfl
  | true =>
    exfalso
    by_cases hbc : strLt b c = true
    · have := strLt_trans b c a hbc hca
      rw [h1] at this
      exact absurd this (by simp)
    · have hbc' : strLt b c = false := by simpa using hbc
      have hbceq : b = c := strLt_conn b c hbc' h2
      subst hbceq
      rw [hca] at h1
      exact absurd h1 (by simp)

theorem sortInsert_mem {z a : List Char} (l : List (List Char)) :
    z ∈ sortInsert a l ↔ z = a ∨ z ∈ l := by
  induction l with
  | nil => simp [sortInsert]
  | cons b l ih =>
    simp only [sortInsert]
    by_cases h : pagesLess b a = true
    · rw [if_pos h]
      simp only [List.mem_cons, ih]
      tauto
    · rw [if_neg h]
      simp only [List.mem_cons]

theorem sortPages_mem {z : List Char} (l : List (List Char)) :
    z ∈ sortPages l ↔ z ∈ l := by
  induction l with
  | nil => simp [sortPages]
  | cons a l ih => simp [sortPages, sortInsert_mem, ih]

theorem sortInsert_pairwise {a : List Char} (ha : a ≠ homeTitleS) :
    ∀ l, (∀ x ∈ l, x ≠ homeTitleS) →
      l.Pairwise (fun x y => pagesLess y x = false) →
      (sortInsert a l).Pairwise (fun x y => pagesLess y x = false) := by
  intro l
  induction l with
  | nil => intro _ _; simp [sortInsert]
  | cons b l ih =>
    intro hP hp
    rw [List.pairwise_cons] at hp
    obtain ⟨hb_all, hp_l⟩ := hp
    have hbP := hP b (List.mem_cons_self b l)
    have hlP : ∀ x ∈ l, x ≠ homeTitleS := fun x hx => hP x (List.mem_cons_of_mem b hx)
    simp only [sortInsert]
    by_cases h : pagesLess b a = true
    · rw [if_pos h]
      rw [List.pairwise_cons]
      refine ⟨?_, ih hlP hp_l⟩
      intro z hz
      rcases (sortInsert_mem l).mp hz with rfl | hzl
      · rw [pagesLess_of_ne hbP ha] at h
        rw [pagesLess_of_ne ha hbP]
        exact strLt_asymm h
      · exact hb_all z hzl
    · rw [if_neg h]
      rw [List.pairwise_cons]
      refine ⟨?_, List.pairwise_cons.mpr ⟨hb_all, hp_l⟩⟩
      intro z hz
      rcases List.mem_cons.mp hz with rfl | hzl
      · simpa using h
      · exact pagesNotLess_trans ha hbP (hlP z hzl) (by simpa using h) (hb_all z hzl)

theorem sortPages_pairwise : ∀ l, (∀ x ∈ l, x ≠ homeTitleS) →
    (sortPages l).Pairwise (fun x y => pagesLess y x = false) := by
  intro l
  induction l with
  | nil => intro _; simp [sortPages]
  | cons a l ih =>
    intro hP
    have haP := hP a (List.mem_cons_self a l)
    have hlP : ∀ x ∈ l, x ≠ homeTitleS := fun x hx => hP x (List.mem_cons_of_mem a hx)
    simp only [sortPages]
    exact sortInsert_pairwise haP (sortPages l)
      (fun x hx => hlP x ((sortPages_mem l).mp hx)) (ih hlP)

theorem mkUrl_ne_home (n : List Char) : mkUrl n ≠ homeTitleS := by
  intro h
  have h1 : (mkUrl n).head? = some '<' := rfl
  have h2 : homeTitleS.head? = some 'H' := rfl
  rw [h, h2] at h1
  injection h1 with h3
  exact absurd h3 (by decide)

theorem dirEntryUrl_eq_some {n u : List Char} :
    dirEntryUrl n = some u ↔
      n.head? ≠ some '.' ∧ stripTxt n ≠ homeTitleS ∧ u = mkUrl (stripTxt n) := by
  unfold dirEntryUrl
  by_cases h1 : n.head? = some '.'
  · simp [h1]
  · by_cases h2 : stripTxt n = homeTitleS
    · simp [h1, h2]
    · simp [h1, h2, eq_comm]

/-- C4 counterexample: a directory holding a!b.txt and a-b.txt (both reachable
by saving pages titled "a!b" and "a b") is indexed with the a!b entry first,
although its display title "a!b" sorts strictly after the title "a b" of the
other entry — the index is ordered by the full anchor string, not by title. -/
theorem c4_counterexample :
    updateIndexM ["a!b.txt".data, "a-b.txt".data] =
      [homeAnchor, mkUrl "a!b".data, mkUrl "a-b".data] ∧
    strLt (convertFilenameToTitle "a-b".data) (convertFilenameToTitle "a!b".data) = true := by
  refine ⟨by decide, by decide⟩

/-- C4 (amended): rebuilding the index places the home link first
unconditionally (whether or not the home file exists); the remaining entries
are exactly the anchors of the non-dotfile directory entries whose name, after
stripping ".txt", differs from the home title; and they are listed in
ascending order of the anchor string under the index comparator (which
coincides with title order only for names over letters, digits and hyphens). -/
theorem c4_amended_index (dirNames : List (List Char)) :
    (updateIndexM dirNames).head? = some homeAnchor ∧
    (updateIndexM dirNames).tail.Pairwise (fun x y => pagesLess y x = false) ∧
    (∀ u, u ∈ (updateIndexM dirNames).tail ↔
      ∃ n, n ∈ dirNames ∧ n.head? ≠ some '.' ∧ stripTxt n ≠ homeTitleS ∧
        u = mkUrl (stripTxt n)) := by
  refine ⟨rfl, ?_, ?_⟩
  · show (sortPages (dirNames.filterMap dirEntryUrl)).Pairwise _
    apply sortPages_pairwise
    intro x hx
    obtain ⟨n, _, hu⟩ := List.mem_filterMap.mp hx
    obtain ⟨_, _, hx_eq⟩ := dirEntryUrl_eq_some.mp hu
    rw [hx_eq]
    exact mkUrl_ne_home _
  · intro u
    show u ∈ sortPages (dirNames.filterMap dirEntryUrl) ↔ _
    rw [sortPages_mem, List.mem_filterMap]
    constructor
    · rintro ⟨n, hn, hu⟩
      obtain ⟨ha, hb, hc⟩ := dirEntryUrl_eq_some.mp hu
      exact ⟨n, hn, ha, hb, hc⟩
    · rintro ⟨n, hn, ha, hb, hc⟩
      exact ⟨n, hn, dirEntryUrl_eq_some.mpr ⟨ha, hb, hc⟩⟩

/-- C4 witness: with a dotfile, a page file and the home file stored, the index
starts with the home anchor and contains the anchor of B. -/
theorem c4_amended_index_witness :
    (updateIndexM [".hidden".data, "B.txt".data, "Home.txt".data]).head? =
      some homeAnchor ∧
    mkUrl "B".data ∈ (updateIndexM [".hidden".data, "B.txt".data, "Home.txt".data]).tail := by
  have h := c4_amended_index [".hidden".data, "B.txt".data, "Home.txt".data]
  refine ⟨h.1, ?_⟩
  exact (h.2.2 (mkUrl "B".data)).mpr
    ⟨"B.txt".data, by decide, by decide, by decide, by decide⟩
